import Mathlib

/-!
Verification of the ProtExAM retrieval and normalization layer
(`protexam_query.py`, `protexam_input.py`) against its specification.

The Python source is shallowly embedded: pure fragments become Lean
functions, the paginated download loops become explicit recursions that
also record the trace of issued requests, and code that can raise an
uncaught Python exception returns `Option`/`Except` (`none`/`.error`
standing for the raised exception).
-/

namespace Protexam

/-! ## String helpers shared by the embeddings

`pyJoin sep l` is Python's `sep.join(l)`; `pyReplaceSpace` is
`.replace(" ", "_")` and `pyLower` is `.lower()` restricted to the
ASCII case mapping, both per-character maps. -/

def pyJoin (sep : String) : List String → String
  | [] => ""
  | [x] => x
  | x :: y :: xs => x ++ sep ++ pyJoin sep (y :: xs)

def pyReplaceSpace (s : String) : String :=
  String.mk (s.data.map (fun c => if c = ' ' then '_' else c))

def pyLower (s : String) : String :=
  String.mk (s.data.map Char.toLower)

/-! ## Batch partitioner (claim C8)

Modelled from the spec: `batch_this` lives in `protexam_helpers.py`,
which is not among the repository files provided (only its callers at
`protexam_query.py` lines 318 and 415 are). Per the spec (section 4.1)
it takes a sequence and a maximum batch size B and yields contiguous
chunks of at most B elements covering the input once, in order. The
`b = 0` guard only serves totality; both call sites pass 100 or 1000. -/

def batch_this : List α → Nat → List (List α)
  | [], _ => []
  | _ :: _, 0 => []
  | x :: xs, b + 1 => (x :: xs).take (b + 1) :: batch_this (xs.drop b) (b + 1)
termination_by l _ => l.length
decreasing_by
  simp only [List.length_drop, List.length_cons]
  omega

/-! ## UniProtKB alias normalization (claims C4, C5, C6)

Embeds the alias-mode entry processing of `download_uniprot_entries`
(`protexam_query.py` lines 497-535).  An entry is the nested dictionary
`xmlschema.to_dict` produces, reduced to exactly the paths the code
accesses.  A `fullName` value is either a dict (whose `$` key may be
absent) or a bare string; indexing a dict without the key raises
`KeyError`, indexing a string with `'$'` raises `TypeError`.  `Option`
results model uncaught exceptions as `none`. -/

inductive FullNameVal where
  | obj (dollar : Option String)
  | bare (s : String)
deriving DecidableEq

/-- Accessing `fullName['$']`: `none` models the raised `KeyError`
(dict without the key) or `TypeError` (string indexed by name), neither
of which is caught inside an `except` branch already running. -/
def dollarOf : FullNameVal → Option String
  | .obj (some s) => some s
  | .obj none => none
  | .bare _ => none

/-- One `alternativeName` pair: the `fullName` key may be absent, and the
`shortName` key may be absent or hold a list of strings. -/
structure AltName where
  fullName : Option FullNameVal
  shortName : Option (List String)
deriving DecidableEq

/-- The `protein` sub-dictionary, reduced to the accessed paths:
`recommendedName` stands for the value of
`protein['recommendedName']['fullName']` (`none` when either key is
absent, both raising `KeyError`), `submittedName` for the list of
`fullName` values under `protein['submittedName']`, and
`alternativeName` for the optional list of pairs. -/
structure UProtein where
  recommendedName : Option FullNameVal
  submittedName : List FullNameVal
  alternativeName : Option (List AltName)
deriving DecidableEq

/-- One entry: `accession` list, `name` list (index 0 is used), the
`protein` sub-dictionary, and `gene`, standing for the list of `$`
values under `entry['gene'][0]['name']` (`none` when a `KeyError` path
is taken; each element `none` when that pair lacks `$`). -/
structure UEntry where
  accession : List String
  name : List String
  protein : UProtein
  gene : Option (List (Option String))
deriving DecidableEq

/-- Lines 504-509: `try` the recommended full name's `$`; on `KeyError`
use `submittedName[0]['fullName']['$']`; on `TypeError` (bare string
`fullName`) append the bare string itself. An exception raised inside
the `except KeyError` branch is uncaught, hence `bind dollarOf`. -/
def nameAlias (p : UProtein) : Option String :=
  match p.recommendedName with
  | some (.obj (some s)) => some s
  | some (.bare s) => some s
  | some (.obj none) => p.submittedName.head?.bind dollarOf
  | none => p.submittedName.head?.bind dollarOf

/-- Outcome of one `alternativeName` pair (lines 512-519): append a
string, or abort the whole loop (a `KeyError` from a missing
`shortName` key escapes to the outer `except KeyError: pass`), or crash
(`IndexError` from `shortName[0]` on an empty list is uncaught). -/
inductive AltStep where
  | app (s : String)
  | stop
  | crash
deriving DecidableEq

def shortFallback : Option (List String) → AltStep
  | some (s :: _) => .app s
  | some [] => .crash
  | none => .stop

def altStep (a : AltName) : AltStep :=
  match a.fullName with
  | some (.obj (some s)) => .app s
  | some (.bare s) => .app s
  | some (.obj none) => shortFallback a.shortName
  | none => shortFallback a.shortName

def altAliases : List AltName → Option (List String)
  | [] => some []
  | a :: rest =>
    match altStep a with
    | .app s => (altAliases rest).map (fun l => s :: l)
    | .stop => some []
    | .crash => none

/-- Lines 511-521: the outer `try` around the `alternativeName` loop;
an absent key means no alternative names. -/
def altPhase : Option (List AltName) → Option (List String)
  | none => some []
  | some l => altAliases l

/-- Lines 523-527: gene-name `$` values are appended until one pair
lacks `$` (`KeyError` → `pass` aborts the loop, keeping what was
already appended). -/
def geneCollect : List (Option String) → List String
  | [] => []
  | some s :: rest => s :: geneCollect rest
  | none :: _ => []

def genePhase : Option (List (Option String)) → List String
  | none => []
  | some l => geneCollect l

/-- Lines 497-527: the alias list accumulated for one entry, in append
order: accessions, `name[0]`, the recommended/submitted/bare name, the
alternative names, the gene names.  `none` models an uncaught
exception while building. -/
def buildAliases (e : UEntry) : Option (List String) := do
  let n0 ← e.name.head?
  let tier ← nameAlias e.protein
  let alts ← altPhase e.protein.alternativeName
  pure (e.accession ++ [n0] ++ [tier] ++ alts ++ genePhase e.gene)

/-- Python `list.remove(x)` preceded by `if x in aliases` (lines
529-530): deletes the first occurrence only, no-op when absent. -/
def pyRemoveFirst (x : String) : List String → List String
  | [] => []
  | y :: ys => if y = x then ys else y :: pyRemoveFirst x ys

/-- Python `dict.fromkeys` deduplication (line 532): keeps the first
occurrence of each string, in order. -/
def pyDedupGo (seen : List String) : List String → List String
  | [] => []
  | x :: xs => if x ∈ seen then pyDedupGo seen xs else x :: pyDedupGo (x :: seen) xs

def pyDedup (l : List String) : List String := pyDedupGo [] l

/-- Reference keep-first deduplication: scan left to right and append
an element only at its first occurrence.  This left fold is the order
contract of `dict.fromkeys`: each element sits at the position of its
first occurrence, so for example `["a", "b", "a"]` yields
`["a", "b"]`, whereas a keep-last deduplication would yield
`["b", "a"]` — proving `pyDedup` equal to this fold pins the
first-seen order, not merely the element set. -/
def keepFirstDedup (l : List String) : List String :=
  l.foldl (fun acc x => if x ∈ acc then acc else acc ++ [x]) []

/-- Lines 529-533: placeholder removal followed by deduplication. -/
def dedupedAliases (a : List String) : List String :=
  pyDedup (pyRemoveFirst "Uncharacterized protein" a)

def emittedAliases (e : UEntry) : Option (List String) :=
  (buildAliases e).map dedupedAliases

/-- Line 534: `(("|".join(aliases)).replace(" ", "_")).lower()`. -/
def emitLine (l : List String) : String :=
  pyLower (pyReplaceSpace (pyJoin "|" l))

/-- The alias output line written for one entry (line 535). -/
def aliasLine (e : UEntry) : Option String :=
  (emittedAliases e).map emitLine

/-- The emitted aliases as the per-alias strings of the output line:
since `pyReplaceSpace` and `pyLower` act character by character and fix
the separator `|`, applying them alias by alias yields exactly the
fields of `aliasLine`; `aliasLine_eq_join_emittedAliasStrings` proves
that correspondence. -/
def emittedAliasStrings (e : UEntry) : Option (List String) :=
  (emittedAliases e).map (fun l => l.map (fun s => pyLower (pyReplaceSpace s)))

theorem pyReplaceSpace_append (a b : String) :
    pyReplaceSpace (a ++ b) = pyReplaceSpace a ++ pyReplaceSpace b := by
  simp [pyReplaceSpace, String.data_append, String.ext_iff]

theorem pyLower_append (a b : String) :
    pyLower (a ++ b) = pyLower a ++ pyLower b := by
  simp [pyLower, String.data_append, String.ext_iff]

theorem pyJoin_map_char (f : Char → Char) (hf : f '|' = '|') (l : List String) :
    (pyJoin "|" (l.map (fun s => String.mk (s.data.map f)))).data
      = (pyJoin "|" l).data.map f := by
  induction l with
  | nil => simp [pyJoin]
  | cons x xs ih =>
    cases xs with
    | nil => simp [pyJoin]
    | cons y ys =>
      simp only [List.map_cons] at *
      simp only [pyJoin, String.data_append, List.map_append, ih]
      simp [show ("|" : String).data = ['|'] from rfl, hf]

theorem aliasLine_eq_join_emittedAliasStrings (e : UEntry) :
    aliasLine e = (emittedAliasStrings e).map (pyJoin "|") := by
  unfold aliasLine emittedAliasStrings
  cases h : emittedAliases e with
  | none => rfl
  | some l =>
    simp only [Option.map_some']
    congr 1
    have hd := pyJoin_map_char (fun c => Char.toLower (if c = ' ' then '_' else c))
      (by decide) l
    simp only [emitLine, pyLower, pyReplaceSpace, String.ext_iff, List.map_map,
      Function.comp_def] at hd ⊢
    exact hd.symm

end Protexam

namespace Protexam

/-! ## Deduplication lemmas (claim C5) -/

theorem pyDedupGo_mem (l : List String) :
    ∀ seen x, x ∈ pyDedupGo seen l ↔ (x ∈ l ∧ x ∉ seen) := by
  induction l with
  | nil => intro seen x; simp [pyDedupGo]
  | cons y ys ih =>
    intro seen x
    by_cases hy : y ∈ seen
    · simp only [pyDedupGo, if_pos hy, ih, List.mem_cons]
      constructor
      · rintro ⟨hx, hxs⟩
        exact ⟨Or.inr hx, hxs⟩
      · rintro ⟨rfl | hx, hxs⟩
        · exact absurd hy hxs
        · exact ⟨hx, hxs⟩
    · simp only [pyDedupGo, if_neg hy, List.mem_cons, ih]
      constructor
      · rintro (rfl | ⟨hx, hxs⟩)
        · exact ⟨Or.inl rfl, hy⟩
        · exact ⟨Or.inr hx, fun hc => hxs (Or.inr hc)⟩
      · rintro ⟨rfl | hx, hxs⟩
        · exact Or.inl rfl
        · by_cases hxy : x = y
          · exact Or.inl hxy
          · exact Or.inr ⟨hx, fun hc => hc.elim hxy hxs⟩

theorem pyDedupGo_sublist (l : List String) :
    ∀ seen, (pyDedupGo seen l).Sublist l := by
  induction l with
  | nil => intro seen; simp [pyDedupGo]
  | cons y ys ih =>
    intro seen
    by_cases hy : y ∈ seen
    · simpa [pyDedupGo, if_pos hy] using (ih seen).cons y
    · simpa [pyDedupGo, if_neg hy] using (ih (y :: seen)).cons₂ y

theorem pyDedupGo_nodup (l : List String) :
    ∀ seen, (pyDedupGo seen l).Nodup := by
  induction l with
  | nil => intro seen; simp [pyDedupGo]
  | cons y ys ih =>
    intro seen
    by_cases hy : y ∈ seen
    · simpa [pyDedupGo, if_pos hy] using ih seen
    · simp only [pyDedupGo, if_neg hy, List.nodup_cons]
      refine ⟨fun hc => ?_, ih (y :: seen)⟩
      exact ((pyDedupGo_mem ys (y :: seen) y).mp hc).2 (List.mem_cons_self y seen)

theorem foldl_keepFirst_go (l : List String) :
    ∀ acc seen : List String, (∀ x, x ∈ acc ↔ x ∈ seen) →
      l.foldl (fun acc x => if x ∈ acc then acc else acc ++ [x]) acc
        = acc ++ pyDedupGo seen l := by
  induction l with
  | nil => intro acc seen _; simp [pyDedupGo]
  | cons y ys ih =>
    intro acc seen hiff
    simp only [List.foldl_cons, pyDedupGo]
    by_cases hy : y ∈ seen
    · rw [if_pos ((hiff y).mpr hy), if_pos hy]
      exact ih acc seen hiff
    · rw [if_neg (fun hc => hy ((hiff y).mp hc)), if_neg hy]
      rw [ih (acc ++ [y]) (y :: seen) ?_]
      · simp
      · intro x
        simp only [List.mem_append, List.mem_singleton, List.mem_cons, hiff x]
        tauto

theorem pyDedup_eq_keepFirstDedup (l : List String) :
    pyDedup l = keepFirstDedup l := by
  rw [pyDedup, keepFirstDedup]
  simpa using (foldl_keepFirst_go l [] [] (by simp)).symm

theorem pyRemoveFirst_count (x : String) (l : List String) :
    (pyRemoveFirst x l).count x = l.count x - 1 := by
  induction l with
  | nil => simp [pyRemoveFirst]
  | cons y ys ih =>
    by_cases hy : y = x
    · subst hy
      simp [pyRemoveFirst, List.count_cons_self]
    · simp [pyRemoveFirst, hy, ih, List.count_cons, Ne.symm hy]

/-- Claim C6: the example protein entry (accessions P12345 and Q99999,
entry name BRCA1_HUMAN, recommended full name present, one alternative
name carrying only a short name, one gene name) yields exactly the
lower-cased, underscore-for-space, pipe-joined alias line. -/
theorem uniprot_alias_example_line :
    aliasLine
      { accession := ["P12345", "Q99999"]
        name := ["BRCA1_HUMAN"]
        protein :=
          { recommendedName :=
              some (.obj (some "Breast cancer type 1 susceptibility protein"))
            submittedName := []
            alternativeName :=
              some [{ fullName := none, shortName := some ["RING finger protein 53"] }] }
        gene := some [some "BRCA1"] }
      = some ("p12345|q99999|brca1_human|breast_cancer_type_1_susceptibility_protein"
               ++ "|ring_finger_protein_53|brca1") := by
  decide

/-- Claim C4: in the alias list built for an entry, the element placed
immediately after the accessions and the primary entry name is the one
`nameAlias` selects, and `nameAlias` follows the three-tier fallback:
the recommended full name when present, else the first submitted name's
full name, else (when the nested full-name value degenerates to a bare
string) that bare string. -/
theorem alias_name_three_tier_fallback (e : UEntry) (l : List String)
    (h : buildAliases e = some l) :
    l[e.accession.length + 1]? = nameAlias e.protein ∧
    (∀ r, e.protein.recommendedName = some (.obj (some r)) →
      nameAlias e.protein = some r) ∧
    (∀ s, e.protein.recommendedName = none →
      e.protein.submittedName.head? = some (.obj (some s)) →
      nameAlias e.protein = some s) ∧
    (∀ b, e.protein.recommendedName = some (.bare b) →
      nameAlias e.protein = some b) := by
  refine ⟨?_, ?_, ?_, ?_⟩
  · unfold buildAliases at h
    cases hn : e.name.head? <;> rw [hn] at h
    · simp at h
    case some n0 =>
      cases ht : nameAlias e.protein <;> rw [ht] at h
      · simp at h
      case some t =>
        cases ha : altPhase e.protein.alternativeName <;> rw [ha] at h
        · simp at h
        case some alts =>
          simp only [Option.bind_eq_bind, Option.some_bind, Option.pure_def,
            Option.some.injEq] at h
          subst h
          simp only [List.append_assoc, List.singleton_append, List.cons_append]
          rw [List.getElem?_append_right (by omega)]
          simp
  · intro r hr; simp [nameAlias, hr]
  · intro s hrec hsub; simp [nameAlias, hrec, hsub, dollarOf]
  · intro b hb; simp [nameAlias, hb]

/-- Witness for `alias_name_three_tier_fallback` at a concrete entry
whose recommended full name is present. -/
theorem alias_name_three_tier_fallback_witness :
    buildAliases
        { accession := ["P1"]
          name := ["N"]
          protein :=
            { recommendedName := some (.obj (some "R"))
              submittedName := []
              alternativeName := none }
          gene := none }
      = some ["P1", "N", "R"] ∧
    (["P1", "N", "R"] : List String)[(["P1"] : List String).length + 1]?
      = nameAlias
          { recommendedName := some (.obj (some "R"))
            submittedName := []
            alternativeName := none } := by
  have h : buildAliases
      { accession := ["P1"]
        name := ["N"]
        protein :=
          { recommendedName := some (.obj (some "R"))
            submittedName := []
            alternativeName := none }
        gene := none }
      = some ["P1", "N", "R"] := by decide
  exact ⟨h, (alias_name_three_tier_fallback _ _ h).1⟩

/-- Counterexample to claim C5: an entry whose entry name is
"Foo Bar", whose recommended full name is the bare string "foo bar"
(distinct before lower-casing, so deduplication keeps both) and whose
gene name is the lower-case "uncharacterized protein" (not the exact
string `list.remove` targets).  The emitted alias sequence contains two
identical strings and contains the placeholder. -/
theorem alias_dedup_counterexample :
    emittedAliasStrings
        { accession := ["P1"]
          name := ["Foo Bar"]
          protein :=
            { recommendedName := some (.bare "foo bar")
              submittedName := []
              alternativeName := none }
          gene := some [some "uncharacterized protein"] }
      = some ["p1", "foo_bar", "foo_bar", "uncharacterized_protein"] ∧
    ¬ (["p1", "foo_bar", "foo_bar", "uncharacterized_protein"] : List String).Nodup ∧
    "uncharacterized_protein"
      ∈ (["p1", "foo_bar", "foo_bar", "uncharacterized_protein"] : List String) ∧
    aliasLine
        { accession := ["P1"]
          name := ["Foo Bar"]
          protein :=
            { recommendedName := some (.bare "foo bar")
              submittedName := []
              alternativeName := none }
          gene := some [some "uncharacterized protein"] }
      = some "p1|foo_bar|foo_bar|uncharacterized_protein" := by
  refine ⟨by decide, by decide, by decide, by decide⟩

/-- Claim C5 (amended): the alias list of an entry, after removing the
first exact occurrence of "Uncharacterized protein" and deduplicating,
never contains two identical strings, keeps exactly the first
occurrence of each remaining alias in first-seen order, and omits the
placeholder provided it occurred at most once; only the later
lower-casing step can re-introduce duplicates or case variants of the
placeholder. -/
theorem alias_dedup_amended (e : UEntry) (a : List String)
    (h : buildAliases e = some a) :
    (dedupedAliases a).Nodup ∧
    (dedupedAliases a).Sublist (pyRemoveFirst "Uncharacterized protein" a) ∧
    dedupedAliases a
      = keepFirstDedup (pyRemoveFirst "Uncharacterized protein" a) ∧
    (∀ x, x ∈ dedupedAliases a ↔ x ∈ pyRemoveFirst "Uncharacterized protein" a) ∧
    (a.count "Uncharacterized protein" ≤ 1 →
      "Uncharacterized protein" ∉ dedupedAliases a) := by
  refine ⟨pyDedupGo_nodup _ [], pyDedupGo_sublist _ [],
    pyDedup_eq_keepFirstDedup _, ?_, ?_⟩
  · intro x
    simpa using pyDedupGo_mem (pyRemoveFirst "Uncharacterized protein" a) [] x
  · intro hc hmem
    have hx := (pyDedupGo_mem (pyRemoveFirst "Uncharacterized protein" a) []
      "Uncharacterized protein").mp hmem
    have hpos : 0 < (pyRemoveFirst "Uncharacterized protein" a).count
        "Uncharacterized protein" := List.count_pos_iff.mpr hx.1
    rw [pyRemoveFirst_count] at hpos
    omega

/-- Witness for `alias_dedup_amended`: a concrete entry with a
duplicated accession and one exact occurrence of the placeholder. -/
theorem alias_dedup_amended_witness :
    buildAliases
        { accession := ["P1", "P1"]
          name := ["N"]
          protein :=
            { recommendedName := some (.obj (some "Uncharacterized protein"))
              submittedName := []
              alternativeName := none }
          gene := none }
      = some ["P1", "P1", "N", "Uncharacterized protein"] ∧
    ((dedupedAliases ["P1", "P1", "N", "Uncharacterized protein"]).Nodup ∧
     (dedupedAliases ["P1", "P1", "N", "Uncharacterized protein"]).Sublist
       (pyRemoveFirst "Uncharacterized protein" ["P1", "P1", "N", "Uncharacterized protein"]) ∧
     dedupedAliases ["P1", "P1", "N", "Uncharacterized protein"]
       = keepFirstDedup (pyRemoveFirst "Uncharacterized protein"
           ["P1", "P1", "N", "Uncharacterized protein"]) ∧
     (∀ x, x ∈ dedupedAliases ["P1", "P1", "N", "Uncharacterized protein"]
        ↔ x ∈ pyRemoveFirst "Uncharacterized protein" ["P1", "P1", "N", "Uncharacterized protein"]) ∧
     ((["P1", "P1", "N", "Uncharacterized protein"] : List String).count
        "Uncharacterized protein" ≤ 1 →
      "Uncharacterized protein" ∉ dedupedAliases ["P1", "P1", "N", "Uncharacterized protein"])) := by
  have h : buildAliases
      { accession := ["P1", "P1"]
        name := ["N"]
        protein :=
          { recommendedName := some (.obj (some "Uncharacterized protein"))
            submittedName := []
            alternativeName := none }
        gene := none }
      = some ["P1", "P1", "N", "Uncharacterized protein"] := by decide
  exact ⟨h, alias_dedup_amended _ _ h⟩

/-- Strong-induction core of the claim C8 partition property. -/
theorem batch_this_partition_aux {α : Type} :
    ∀ n (l : List α) (b : Nat), 0 < b → l.length = n →
    (batch_this l b).length = (l.length + b - 1) / b ∧
    (∀ c ∈ batch_this l b, c.length ≤ b) ∧
    (batch_this l b).flatten = l ∧
    (l.length = 0 → batch_this l b = []) ∧
    (0 < l.length → l.length < b → batch_this l b = [l]) := by
  intro n
  induction n using Nat.strong_induction_on with
  | _ n ih =>
    intro l b hb hn
    cases l with
    | nil =>
      refine ⟨?_, by simp [batch_this], by simp [batch_this], by simp [batch_this], by simp⟩
      simp only [batch_this, List.length_nil]
      rw [Nat.div_eq_of_lt (by omega)]
    | cons x xs =>
      cases b with
      | zero => omega
      | succ b =>
        have hdrop : (xs.drop b).length < n := by
          subst hn; simp only [List.length_drop]; simp; omega
        obtain ⟨ihlen, ihle, ihjoin, _, _⟩ :=
          ih (xs.drop b).length hdrop (xs.drop b) (b + 1) hb rfl
        have heq : batch_this (x :: xs) (b + 1)
            = (x :: xs).take (b + 1) :: batch_this (xs.drop b) (b + 1) := by
          simp only [batch_this]
        refine ⟨?_, ?_, ?_, by simp, ?_⟩
        · rw [heq]
          simp only [List.length_cons, ihlen, List.length_drop]
          rcases Nat.lt_or_ge (xs.length + 1) (b + 1) with hlt | hge
          · have e1 : (xs.length - b + (b + 1) - 1) / (b + 1) = 0 :=
              Nat.div_eq_of_lt (by omega)
            have e2 : (xs.length + 1 + (b + 1) - 1) / (b + 1) = 1 := by
              have h2 : xs.length + 1 + (b + 1) - 1 = xs.length + (b + 1) := by omega
              rw [h2, Nat.add_div_right _ (by omega), Nat.div_eq_of_lt (by omega)]
            rw [e1, e2]
          · have h1 : xs.length + 1 + (b + 1) - 1 = (xs.length - b + (b + 1) - 1) + (b + 1) := by
              omega
            rw [h1, Nat.add_div_right _ (by omega)]
        · rw [heq]
          intro c hc
          rcases List.mem_cons.mp hc with rfl | hc
          · simpa using List.length_take_le (b + 1) (x :: xs)
          · exact ihle c hc
        · rw [heq]
          simp only [List.flatten_cons, ihjoin]
          have hdx : xs.drop b = (x :: xs).drop (b + 1) := rfl
          rw [hdx, List.take_append_drop]
        · intro _ hlt
          rw [heq]
          have h1 : (x :: xs).take (b + 1) = x :: xs :=
            List.take_of_length_le (by simpa using Nat.le_of_lt hlt)
          have h2 : xs.drop b = [] := by
            apply List.drop_eq_nil_of_le
            simp at hlt
            omega
          rw [h1, h2]
          simp [batch_this]

/-- Claim C8: for a positive batch size B, `batch_this` yields exactly
`ceil(N/B)` contiguous batches, each of length at most B, whose
concatenation is the original sequence; an empty input yields no
batches, and a nonempty input shorter than B yields the single batch
equal to the whole input. -/
theorem batch_this_partition {α : Type} (l : List α) (b : Nat) (hb : 0 < b) :
    (batch_this l b).length = (l.length + b - 1) / b ∧
    (∀ c ∈ batch_this l b, c.length ≤ b) ∧
    (batch_this l b).flatten = l ∧
    (l.length = 0 → batch_this l b = []) ∧
    (0 < l.length → l.length < b → batch_this l b = [l]) :=
  batch_this_partition_aux l.length l b hb rfl

/-- Witness for `batch_this_partition` at a three-element list with
batch size two. -/
theorem batch_this_partition_witness :
    0 < 2 ∧
    ((batch_this [0, 1, 2] 2).length = (([0, 1, 2] : List Nat).length + 2 - 1) / 2 ∧
     (∀ c ∈ batch_this [0, 1, 2] 2, c.length ≤ 2) ∧
     (batch_this [0, 1, 2] 2).flatten = [0, 1, 2] ∧
     (([0, 1, 2] : List Nat).length = 0 → batch_this [0, 1, 2] 2 = []) ∧
     (0 < ([0, 1, 2] : List Nat).length → ([0, 1, 2] : List Nat).length < 2 →
       batch_this [0, 1, 2] 2 = [[0, 1, 2]])) :=
  ⟨by decide, batch_this_partition [0, 1, 2] 2 (by decide)⟩

/-! ## PubMed pagination (claims C1, C2, C7)

Embeds `run_pubmed_query` (`protexam_query.py` lines 76-112) and
`download_pubmed_entries` (lines 128-168).  The server is modelled as
holding `T` records identified `0 .. T-1`: an `esearch`/`efetch` window
request at `retstart = o` with `retmax = 1000` returns records
`o .. min (o + 1000) T - 1`.  Both embeddings return the trace of
issued request offsets (first component) together with the accumulated
records (second component). -/

def esearchIds (T offset : Nat) : List Nat :=
  ((List.range T).drop offset).take 1000

/-- Lines 88-99: `index = retmax - 1; while index < count + retmax - 1:
fetch at retstart = index; index += retmax`, appending each page's
`IdList` in server-return order (the `except` at lines 101-102 only
prints, so the no-error run is modelled). -/
def esearchLoop (T index : Nat) : List Nat × List Nat :=
  if h : index < T + 1000 - 1 then
    let rest := esearchLoop T (index + 1000)
    (index :: rest.1, esearchIds T index ++ rest.2)
  else ([], [])
termination_by T + 1000 - 1 - index
decreasing_by omega

/-- Lines 76-112: the initial `esearch` at offset 0 collects the first
page and the total `count`; when `count > retmax` the loop continues
from `index = retmax - 1 = 999`.  Result: (offsets of all issued
`esearch` requests, the accumulated `pmid_list`, which lines 106-108
also write one per line to the PMID list file). -/
def runPubmedQuery (T : Nat) : List Nat × List Nat :=
  let firstIds := esearchIds T 0
  if T > 1000 then
    let rest := esearchLoop T (1000 - 1)
    (0 :: rest.1, firstIds ++ rest.2)
  else ([0], firstIds)

/-- Lines 138-146: `index = 0; while index < count + retmax - 1: efetch
at retstart = index; index += retmax`; an HTTP error ends the loop via
the surrounding `try`/`except` (lines 137, 153-154), keeping what was
accumulated.  `fetch` abstracts one `efetch` request: `.error` is a
raised `urllib.error.HTTPError`. -/
def efetchLoopRun {α : Type} (count : Nat) (fetch : Nat → Except Unit (List α))
    (index : Nat) : List Nat × List α :=
  if h : index < count + 1000 - 1 then
    match fetch index with
    | .error _ => ([index], [])
    | .ok recs =>
      let rest := efetchLoopRun count fetch (index + 1000)
      (index :: rest.1, recs ++ rest.2)
  else ([], [])
termination_by count + 1000 - 1 - index
decreasing_by omega

/-- Lines 128-168: `count = len(pmid_list)`; for `count > retmax` the
paged loop runs, otherwise a single `efetch` at offset 0 is issued.
Result: (offsets of issued requests, `pm_recs`); lines 162-164 write
exactly `pm_recs` to the entries file and line 168 returns it, with no
other outputs. -/
def downloadPubmedEntries {α : Type} (count : Nat)
    (fetch : Nat → Except Unit (List α)) : List Nat × List α :=
  if count > 1000 then efetchLoopRun count fetch 0
  else
    match fetch 0 with
    | .ok recs => ([0], recs)
    | .error _ => ([0], [])

theorem range'_drop (m : Nat) : ∀ s n : Nat,
    (List.range' s n).drop m = List.range' (s + m) (n - m) := by
  induction m with
  | zero => intro s n; simp
  | succ m ih =>
    intro s n
    cases n with
    | zero => simp
    | succ n =>
      rw [List.range'_succ, List.drop_succ_cons, ih (s + 1) n]
      congr 1 <;> omega

theorem range'_take (m : Nat) : ∀ s n : Nat,
    (List.range' s n).take m = List.range' s (min m n) := by
  induction m with
  | zero => intro s n; simp
  | succ m ih =>
    intro s n
    cases n with
    | zero => simp
    | succ n =>
      rw [List.range'_succ, List.take_succ_cons, ih (s + 1) n,
        Nat.succ_min_succ, List.range'_succ]

theorem esearchIds_eq (T o : Nat) :
    esearchIds T o = List.range' o (min 1000 (T - o)) := by
  rw [esearchIds, List.range_eq_range', range'_drop, range'_take]
  simp

/-- The records the search loop accumulates from offset `index` are
exactly the server records `index .. T-1`: the pages chain contiguously
because the offset advances by exactly the page size. -/
theorem esearchLoop_snd_aux :
    ∀ n T index, T + 1000 - 1 - index = n →
      (esearchLoop T index).2 = List.range' index (T - index) := by
  intro n
  induction n using Nat.strong_induction_on with
  | _ n ih =>
    intro T index hn
    rw [esearchLoop]
    by_cases h : index < T + 1000 - 1
    · rw [dif_pos h]
      have hrec := ih (T + 1000 - 1 - (index + 1000)) (by omega) T (index + 1000) rfl
      simp only [hrec, esearchIds_eq]
      rcases le_or_lt (T - index) 1000 with hle | hgt
      · have h1 : min 1000 (T - index) = T - index := by omega
        have h2 : T - (index + 1000) = 0 := by omega
        rw [h1, h2]
        simp
      · have h1 : min 1000 (T - index) = 1000 := by omega
        rw [h1, List.range'_append_1]
        congr 1
        omega
    · rw [dif_neg h]
      have h0 : T - index = 0 := by omega
      rw [h0]
      rfl

theorem esearchLoop_snd (T index : Nat) :
    (esearchLoop T index).2 = List.range' index (T - index) :=
  esearchLoop_snd_aux _ T index rfl

/-- For a total beyond one page, the accumulated PMID list is the full
first page followed by everything from offset 999 on: one record more
than the server total, record 999 being collected twice. -/
theorem runPubmedQuery_snd (T : Nat) (hT : 1000 < T) :
    (runPubmedQuery T).2 = List.range 1000 ++ List.range' 999 (T - 999) ∧
    (runPubmedQuery T).2.length = T + 1 := by
  have h2 : (runPubmedQuery T).2
      = esearchIds T 0 ++ (esearchLoop T (1000 - 1)).2 := by
    rw [runPubmedQuery]
    simp only [if_pos hT]
  rw [h2, esearchLoop_snd, esearchIds_eq]
  have h1 : min 1000 (T - 0) = 1000 := by omega
  rw [h1]
  constructor
  · rw [List.range_eq_range']
  · simp only [List.length_append, List.length_range', List.length_range]
    omega

/-- Claim C1 evaluated at the failing input T = 2000, P = 1000 (an
exact multiple of the page size): `run_pubmed_query` issues three
esearch requests (offsets 0, 999, 1999) and `download_pubmed_entries`
issues three efetch requests (offsets 0, 1000, 2000 — the last one past
the end of the result set), while `ceil(T/P) = 2`; both loops issue an
extra trailing request, as the code's own comment at lines 156-158
concedes. -/
theorem pagination_overfetch_at_2000 :
    (runPubmedQuery 2000).1 = [0, 999, 1999] ∧
    (downloadPubmedEntries 2000 (fun o => Except.ok (esearchIds 2000 o))).1
      = [0, 1000, 2000] ∧
    (2000 + 1000 - 1) / 1000 = 2 := by
  refine ⟨?_, ?_, by norm_num⟩
  · simp [runPubmedQuery, esearchLoop]
  · simp [downloadPubmedEntries, efetchLoopRun]

/-- Claim C2 evaluated at the spec's own scenario Count = 2500,
retmax = 1000: the accumulated PMID list is the first page (records
0..999) followed by records 999..2499 — length 2501, not 2500, with
record 999 collected twice, because the continuation loop starts at
retstart = retmax - 1 = 999 instead of retmax. -/
theorem pmid_list_off_by_one_at_2500 :
    (runPubmedQuery 2500).2 = List.range 1000 ++ List.range' 999 1501 ∧
    (runPubmedQuery 2500).2.length = 2501 ∧
    (runPubmedQuery 2500).2.count 999 = 2 := by
  obtain ⟨hform, hlen⟩ := runPubmedQuery_snd 2500 (by norm_num)
  have h1501 : 2500 - 999 = 1501 := by norm_num
  rw [h1501] at hform
  refine ⟨hform, by rw [hlen], ?_⟩
  rw [hform, List.count_append]
  have c1 : (List.range 1000).count 999 = 1 :=
    List.count_eq_one_of_mem (List.nodup_range 1000) (List.mem_range.mpr (by norm_num))
  have c2 : (List.range' 999 1501).count 999 = 1 :=
    List.count_eq_one_of_mem (List.nodup_range' 999 1501)
      (List.mem_range'_1.mpr ⟨le_refl 999, by norm_num⟩)
  rw [c1, c2]

/-- Loop invariants for the efetch loop: offsets are issued strictly
increasing from `index` (so no request is ever retried), every issued
request except possibly the last succeeded (the loop stops at the first
error), and the accumulated records are exactly the concatenation of
the successfully fetched pages in request order. -/
theorem efetchLoopRun_aux {α : Type} (count : Nat)
    (fetch : Nat → Except Unit (List α)) :
    ∀ n index, count + 1000 - 1 - index = n →
      (∀ o ∈ (efetchLoopRun count fetch index).1, index ≤ o) ∧
      List.Pairwise (· < ·) (efetchLoopRun count fetch index).1 ∧
      (∀ o ∈ (efetchLoopRun count fetch index).1.dropLast, (fetch o).isOk = true) ∧
      (efetchLoopRun count fetch index).2
        = ((efetchLoopRun count fetch index).1.filterMap
            (fun o => (fetch o).toOption)).flatten := by
  intro n
  induction n using Nat.strong_induction_on with
  | _ n ih =>
    intro index hn
    by_cases h : index < count + 1000 - 1
    · cases hf : fetch index with
      | error e =>
        have heq : efetchLoopRun count fetch index = ([index], []) := by
          rw [efetchLoopRun, dif_pos h, hf]
        rw [heq]
        refine ⟨by simp, by simp, by simp, ?_⟩
        simp [hf, Except.toOption]
      | ok recs =>
        have heq : efetchLoopRun count fetch index
            = (index :: (efetchLoopRun count fetch (index + 1000)).1,
               recs ++ (efetchLoopRun count fetch (index + 1000)).2) := by
          rw [efetchLoopRun, dif_pos h, hf]
        obtain ⟨ihlb, ihpw, ihok, ihrec⟩ :=
          ih (count + 1000 - 1 - (index + 1000)) (by omega) (index + 1000) rfl
        rw [heq]
        refine ⟨?_, ?_, ?_, ?_⟩
        · intro o ho
          rcases List.mem_cons.mp ho with rfl | ho
          · exact le_refl o
          · have := ihlb o ho
            omega
        · rw [List.pairwise_cons]
          exact ⟨fun o ho => by have := ihlb o ho; omega, ihpw⟩
        · intro o ho
          cases hrest : (efetchLoopRun count fetch (index + 1000)).1 with
          | nil =>
            rw [hrest] at ho
            simp at ho
          | cons y ys =>
            rw [hrest] at ho ihok
            rw [List.dropLast_cons₂] at ho
            rcases List.mem_cons.mp ho with rfl | ho2
            · rw [hf]
              rfl
            · exact ihok o ho2
        · rw [ihrec, List.filterMap_cons]
          simp only [hf, Except.toOption, List.flatten_cons]
    · have heq : efetchLoopRun count fetch index = ([], []) := by
        rw [efetchLoopRun, dif_neg h]
      rw [heq]
      exact ⟨by simp, by simp, by simp, by simp⟩

/-- Claim C7 (amended): every HTTP error is absorbed at the fetch
boundary (the function is total over erroring oracles), no request
offset is ever issued twice (no automatic retry), only the last issued
request can have failed, and the value written to the entries file and
returned is exactly the records accumulated before the error — a bare
record list, with no failure flag attached. -/
theorem download_pubmed_error_contract {α : Type} (count : Nat)
    (fetch : Nat → Except Unit (List α)) :
    List.Pairwise (· < ·) (downloadPubmedEntries count fetch).1 ∧
    (∀ o ∈ (downloadPubmedEntries count fetch).1.dropLast, (fetch o).isOk = true) ∧
    (downloadPubmedEntries count fetch).2
      = ((downloadPubmedEntries count fetch).1.filterMap
          (fun o => (fetch o).toOption)).flatten := by
  rw [downloadPubmedEntries]
  by_cases h : count > 1000
  · rw [if_pos h]
    obtain ⟨_, hpw, hok, hrec⟩ := efetchLoopRun_aux count fetch _ 0 rfl
    exact ⟨hpw, hok, hrec⟩
  · rw [if_neg h]
    cases hf : fetch 0 with
    | ok recs =>
      refine ⟨by simp, by simp, ?_⟩
      simp [hf, Except.toOption]
    | error e =>
      refine ⟨by simp, by simp, ?_⟩
      simp [hf, Except.toOption]

/-- A fetch oracle failing with an HTTP error at the second page. -/
def truncFetch : Nat → Except Unit (List Nat) :=
  fun o => if o = 0 then Except.ok [7, 8] else Except.error ()

/-- Counterexample to claim C7's failure-flag conjunct: a retrieval of
2000 entries that errors mid-pagination (after accumulating two
records) returns exactly the same bare value as a complete retrieval of
2 entries — the return carries no flag distinguishing "complete" from
"truncated-due-to-error". -/
theorem download_pubmed_no_failure_flag :
    (downloadPubmedEntries 2000 truncFetch).2 = [7, 8] ∧
    (downloadPubmedEntries 2 (fun _ => Except.ok [7, 8])).2 = [7, 8] ∧
    (downloadPubmedEntries 2000 truncFetch).2
      = (downloadPubmedEntries 2 (fun _ => Except.ok [7, 8])).2 ∧
    truncFetch 1000 = Except.error () := by
  refine ⟨?_, ?_, ?_, rfl⟩ <;>
    simp [downloadPubmedEntries, efetchLoopRun, truncFetch]

/-! ## Multi-root XML merge (claim C3)

Embeds the line-by-line merge of `download_pmc_entries`
(`protexam_query.py` lines 241-260) and
`download_ptc_gene_annotations` (lines 336-357).  `pyIn needle hay`
is Python's substring test `needle in hay`. -/

def charsPre : List Char → List Char → Bool
  | [], _ => true
  | _ :: _, [] => false
  | a :: as, b :: bs => a = b && charsPre as bs

def charsIn : List Char → List Char → Bool
  | n, [] => n.isEmpty
  | n, c :: t => charsPre n (c :: t) || charsIn n t

def pyIn (needle hay : String) : Bool := charsIn needle.data hay.data

/-- Lines 244-258 / 339-355: scan the file's lines with a `have_header`
flag; the first line containing the opening root tag is kept and sets
the flag, later ones are dropped; any line containing one of the
`noline` sentinels (closing root tag, XML declaration, doctype and
other boilerplate) is dropped; every other line is kept. -/
def mergeKeep (openTag : String) (nolines : List String) :
    Bool → List String → List String
  | _, [] => []
  | haveHeader, l :: ls =>
    if pyIn openTag l then
      if haveHeader then mergeKeep openTag nolines true ls
      else l :: mergeKeep openTag nolines true ls
    else if nolines.any (fun nl => pyIn nl l) then
      mergeKeep openTag nolines haveHeader ls
    else l :: mergeKeep openTag nolines haveHeader ls

/-- Lines 244-259 / 339-356: the merged file contents — the kept lines
followed by the one synthetic closing root tag written at the end. -/
def mergeXml (openTag closeTag : String) (nolines : List String)
    (ls : List String) : List String :=
  mergeKeep openTag nolines false ls ++ [closeTag]

def pmcOpenTag : String := "<pmc-articleset>"

def pmcCloseTag : String := "</pmc-articleset>"

def xmlDeclLine : String := "<?xml version=\"1.0\" ?>"

def pmcDoctypeLine : String := "<!DOCTYPE pmc-articleset"

/-- The `noline` sentinel list of lines 251-255. -/
def pmcNolines : List String :=
  [pmcCloseTag, xmlDeclLine, pmcDoctypeLine,
   "  PUBLIC \x27-//NLM//DTD ARTICLE SET 2.0//EN\x27",
   "  \x27https://dtd.nlm.nih.gov/ncbi/pmc/articleset/nlm-articleset-2.0.dtd\x27>"]

/-- The merge performed by `download_pmc_entries` (lines 241-260). -/
def mergePmc (ls : List String) : List String :=
  mergeXml pmcOpenTag pmcCloseTag pmcNolines ls

def ptcOpenTag : String := "<collection>"

def ptcCloseTag : String := "</collection>"

def ptcDoctypeLine : String := "<!DOCTYPE collection"

/-- The `noline` sentinel list of lines 346-352. -/
def ptcNolines : List String :=
  [ptcCloseTag, xmlDeclLine, ptcDoctypeLine,
   "  SYSTEM \x27BioC.dtd\x27>",
   "\t<source>PubTator</source>",
   "\t<date/>",
   "\t<key>BioC.key</key>"]

/-- The merge performed by `download_ptc_gene_annotations`
(lines 336-357). -/
def mergePtc (ls : List String) : List String :=
  mergeXml ptcOpenTag ptcCloseTag ptcNolines ls

theorem mergeKeep_mem (openTag : String) (nolines : List String) :
    ∀ ls b l, l ∈ mergeKeep openTag nolines b ls →
      l ∈ ls ∧ (pyIn openTag l = true ∨
        nolines.any (fun nl => pyIn nl l) = false) := by
  intro ls
  induction ls with
  | nil => intro b l hl; simp [mergeKeep] at hl
  | cons l0 ls ih =>
    intro b l hl
    rw [mergeKeep] at hl
    by_cases ho : pyIn openTag l0
    · rw [if_pos ho] at hl
      cases b with
      | true =>
        rw [if_pos rfl] at hl
        obtain ⟨h1, h2⟩ := ih true l hl
        exact ⟨List.mem_cons_of_mem _ h1, h2⟩
      | false =>
        simp only [if_neg Bool.false_ne_true] at hl
        rcases List.mem_cons.mp hl with rfl | hl
        · exact ⟨List.mem_cons_self _ _, Or.inl ho⟩
        · obtain ⟨h1, h2⟩ := ih true l hl
          exact ⟨List.mem_cons_of_mem _ h1, h2⟩
    · rw [if_neg ho] at hl
      by_cases hn : nolines.any (fun nl => pyIn nl l0)
      · rw [if_pos hn] at hl
        obtain ⟨h1, h2⟩ := ih b l hl
        exact ⟨List.mem_cons_of_mem _ h1, h2⟩
      · rw [if_neg hn] at hl
        rcases List.mem_cons.mp hl with rfl | hl
        · exact ⟨List.mem_cons_self _ _, Or.inr (by simpa using hn)⟩
        · obtain ⟨h1, h2⟩ := ih b l hl
          exact ⟨List.mem_cons_of_mem _ h1, h2⟩

theorem mergeKeep_countP_open_true (openTag : String) (nolines : List String) :
    ∀ ls, (mergeKeep openTag nolines true ls).countP
      (fun l => pyIn openTag l) = 0 := by
  intro ls
  induction ls with
  | nil => simp [mergeKeep]
  | cons l0 ls ih =>
    rw [mergeKeep]
    by_cases ho : pyIn openTag l0
    · rw [if_pos ho, if_pos rfl]
      exact ih
    · rw [if_neg ho]
      by_cases hn : nolines.any (fun nl => pyIn nl l0)
      · rw [if_pos hn]; exact ih
      · rw [if_neg hn, List.countP_cons]
        simp [ih, ho]

theorem mergeKeep_countP_open_false (openTag : String) (nolines : List String) :
    ∀ ls, (mergeKeep openTag nolines false ls).countP
      (fun l => pyIn openTag l)
      = if ls.any (fun l => pyIn openTag l) then 1 else 0 := by
  intro ls
  induction ls with
  | nil => simp [mergeKeep]
  | cons l0 ls ih =>
    rw [mergeKeep]
    by_cases ho : pyIn openTag l0
    · simp only [if_neg Bool.false_ne_true, List.countP_cons, List.any_cons, ho,
        Bool.true_or, if_pos, mergeKeep_countP_open_true]

    · rw [if_neg ho]
      by_cases hn : nolines.any (fun nl => pyIn nl l0)
      · rw [if_pos hn, ih]
        simp [List.any_cons, ho]
      · rw [if_neg hn, List.countP_cons, ih]
        simp [List.any_cons, ho]

/-- Counting properties of the merge: exactly one line containing the
opening root tag, exactly one containing the closing root tag (the
synthetic one), and none containing the XML declaration or doctype. -/
theorem mergeXml_counts (openTag closeTag declL dtL : String)
    (nolines : List String) (ls : List String)
    (hcn : closeTag ∈ nolines) (hdn : declL ∈ nolines) (htn : dtL ∈ nolines)
    (hoc : pyIn openTag closeTag = false)
    (hcc : pyIn closeTag closeTag = true)
    (hdc : pyIn declL closeTag = false)
    (htc : pyIn dtL closeTag = false)
    (hany : ls.any (fun l => pyIn openTag l) = true)
    (hcls : ∀ l ∈ ls, pyIn openTag l = true →
      pyIn closeTag l = false ∧ pyIn declL l = false ∧ pyIn dtL l = false) :
    (mergeXml openTag closeTag nolines ls).countP (fun l => pyIn openTag l) = 1 ∧
    (mergeXml openTag closeTag nolines ls).countP (fun l => pyIn closeTag l) = 1 ∧
    (mergeXml openTag closeTag nolines ls).countP
      (fun l => pyIn declL l || pyIn dtL l) = 0 := by
  have hkept : ∀ l ∈ mergeKeep openTag nolines false ls,
      pyIn closeTag l = false ∧ pyIn declL l = false ∧ pyIn dtL l = false := by
    intro l hl
    obtain ⟨hmem, hcase⟩ := mergeKeep_mem openTag nolines ls false l hl
    rcases hcase with hopen | hno
    · exact hcls l hmem hopen
    · rw [List.any_eq_false] at hno
      exact ⟨Bool.not_eq_true _ ▸ hno closeTag hcn,
        Bool.not_eq_true _ ▸ hno declL hdn, Bool.not_eq_true _ ▸ hno dtL htn⟩
  refine ⟨?_, ?_, ?_⟩
  · rw [mergeXml, List.countP_append, mergeKeep_countP_open_false, if_pos hany]
    simp [List.countP_cons, hoc]
  · rw [mergeXml, List.countP_append]
    have h0 : (mergeKeep openTag nolines false ls).countP
        (fun l => pyIn closeTag l) = 0 := by
      rw [List.countP_eq_zero]
      intro l hl
      simp [(hkept l hl).1]
    rw [h0]
    simp [List.countP_cons, hcc]
  · rw [mergeXml, List.countP_append]
    have h0 : (mergeKeep openTag nolines false ls).countP
        (fun l => pyIn declL l || pyIn dtL l) = 0 := by
      rw [List.countP_eq_zero]
      intro l hl
      simp [(hkept l hl).2.1, (hkept l hl).2.2]
    rw [h0]
    simp [List.countP_cons, hdc, htc]

/-- Claim C3: merging K >= 2 fetched fragments sharing root tag
`pmc-articleset` (in `download_pmc_entries`) or `collection` (in
`download_ptc_gene_annotations`) leaves exactly one opening root tag,
exactly one closing root tag (the synthetic one appended at the end),
and no XML declaration or doctype line — provided each fragment
carries an opening root-tag line and no line containing the opening
tag also contains the closing tag, declaration or doctype text (true
of well-formed pretty-printed fragments, which put these on separate
lines). -/
theorem merged_single_root (fr1 fr2 : List (List String))
    (hk1 : 2 ≤ fr1.length)
    (hopen1 : ∀ f ∈ fr1, ∃ l ∈ f, pyIn pmcOpenTag l = true)
    (hsep1 : ∀ l ∈ fr1.flatten, pyIn pmcOpenTag l = true →
      pyIn pmcCloseTag l = false ∧ pyIn xmlDeclLine l = false ∧
        pyIn pmcDoctypeLine l = false)
    (hk2 : 2 ≤ fr2.length)
    (hopen2 : ∀ f ∈ fr2, ∃ l ∈ f, pyIn ptcOpenTag l = true)
    (hsep2 : ∀ l ∈ fr2.flatten, pyIn ptcOpenTag l = true →
      pyIn ptcCloseTag l = false ∧ pyIn xmlDeclLine l = false ∧
        pyIn ptcDoctypeLine l = false) :
    ((mergePmc fr1.flatten).countP (fun l => pyIn pmcOpenTag l) = 1 ∧
     (mergePmc fr1.flatten).countP (fun l => pyIn pmcCloseTag l) = 1 ∧
     (mergePmc fr1.flatten).countP
       (fun l => pyIn xmlDeclLine l || pyIn pmcDoctypeLine l) = 0) ∧
    ((mergePtc fr2.flatten).countP (fun l => pyIn ptcOpenTag l) = 1 ∧
     (mergePtc fr2.flatten).countP (fun l => pyIn ptcCloseTag l) = 1 ∧
     (mergePtc fr2.flatten).countP
       (fun l => pyIn xmlDeclLine l || pyIn ptcDoctypeLine l) = 0) := by
  constructor
  · refine mergeXml_counts pmcOpenTag pmcCloseTag xmlDeclLine pmcDoctypeLine
      pmcNolines fr1.flatten (by decide) (by decide) (by decide) (by decide)
      (by decide) (by decide) (by decide) ?_ hsep1
    rw [List.any_eq_true]
    obtain ⟨f, hf⟩ := List.exists_mem_of_length_pos (by omega : 0 < fr1.length)
    obtain ⟨l, hl, hol⟩ := hopen1 f hf
    exact ⟨l, List.mem_flatten.mpr ⟨f, hf, hl⟩, hol⟩
  · refine mergeXml_counts ptcOpenTag ptcCloseTag xmlDeclLine ptcDoctypeLine
      ptcNolines fr2.flatten (by decide) (by decide) (by decide) (by decide)
      (by decide) (by decide) (by decide) ?_ hsep2
    rw [List.any_eq_true]
    obtain ⟨f, hf⟩ := List.exists_mem_of_length_pos (by omega : 0 < fr2.length)
    obtain ⟨l, hl, hol⟩ := hopen2 f hf
    exact ⟨l, List.mem_flatten.mpr ⟨f, hf, hl⟩, hol⟩

/-- Two pretty-printed PMC fragments as appended to the output file. -/
def pmcDemoFrags : List (List String) :=
  [["<?xml version=\"1.0\" ?>", "<!DOCTYPE pmc-articleset",
    "<pmc-articleset>", "  <article/>", "</pmc-articleset>"],
   ["<?xml version=\"1.0\" ?>", "<pmc-articleset>", "  <article2/>",
    "</pmc-articleset>"]]

/-- Two pretty-printed BioC fragments as appended to the output file. -/
def ptcDemoFrags : List (List String) :=
  [["<?xml version=\"1.0\" ?>", "<!DOCTYPE collection",
    "<collection>", "\t<source>PubTator</source>", "  <document/>",
    "</collection>"],
   ["<collection>", "  <document2/>", "</collection>"]]

/-- Witness for `merged_single_root` at two concrete fragment pairs. -/
theorem merged_single_root_witness :
    2 ≤ pmcDemoFrags.length ∧ 2 ≤ ptcDemoFrags.length ∧
    ((mergePmc pmcDemoFrags.flatten).countP (fun l => pyIn pmcOpenTag l) = 1 ∧
     (mergePmc pmcDemoFrags.flatten).countP (fun l => pyIn pmcCloseTag l) = 1 ∧
     (mergePmc pmcDemoFrags.flatten).countP
       (fun l => pyIn xmlDeclLine l || pyIn pmcDoctypeLine l) = 0) ∧
    ((mergePtc ptcDemoFrags.flatten).countP (fun l => pyIn ptcOpenTag l) = 1 ∧
     (mergePtc ptcDemoFrags.flatten).countP (fun l => pyIn ptcCloseTag l) = 1 ∧
     (mergePtc ptcDemoFrags.flatten).countP
       (fun l => pyIn xmlDeclLine l || pyIn ptcDoctypeLine l) = 0) :=
  ⟨by decide, by decide,
   (merged_single_root pmcDemoFrags ptcDemoFrags (by decide) (by decide)
     (by decide) (by decide) (by decide) (by decide)).1,
   (merged_single_root pmcDemoFrags ptcDemoFrags (by decide) (by decide)
     (by decide) (by decide) (by decide) (by decide)).2⟩

/-! ## MEDLINE record normalization (claim C9)

Embeds `parse_docs` (`protexam_input.py` lines 111-151).  A parsed
MEDLINE record is an insertion-ordered mapping from field codes to a
string, an integer, or a list of strings. -/

inductive FieldVal where
  | str (s : String)
  | intv (n : Nat)
  | lst (l : List String)
deriving DecidableEq

/-- Python dict assignment `record[k] = v`: replaces the value in place
when the key exists, otherwise appends the new pair. -/
def pySet (k : String) (v : FieldVal) (r : List (String × FieldVal)) :
    List (String × FieldVal) :=
  if r.any (fun p => p.1 = k) then
    r.map (fun p => if p.1 = k then (k, v) else p)
  else r ++ [(k, v)]

/-- Python `del record[k]` (line 134): the pair keyed `k` is removed. -/
def pyDel (k : String) (r : List (String × FieldVal)) :
    List (String × FieldVal) :=
  r.filter (fun p => p.1 ≠ k)

/-- Lines 136-142: every list-valued field is replaced by its elements
joined with `|`; other values pass through, insertion order kept. -/
def flattenRecord (r : List (String × FieldVal)) :
    List (String × FieldVal) :=
  r.map (fun p =>
    (p.1, match p.2 with
          | .lst l => .str (pyJoin "|" l)
          | v => v))

/-- Lines 130-147 applied to one record: assign `record["id"] = doc_id`
(line 132), drop the reserved field code `IS` (lines 133-134), then
flatten list values (lines 136-142). -/
def processRecord (docId : Nat) (r : List (String × FieldVal)) :
    List (String × FieldVal) :=
  flattenRecord (pyDel "IS" (pySet "id" (.intv docId) r))

/-- The records of all MEDLINE files in processing order, each given
the next sequential `doc_id` starting from 0 (lines 122, 132, 147). -/
def parseDocs (recs : List (List (String × FieldVal))) :
    List (List (String × FieldVal)) :=
  recs.enum.map (fun p => processRecord p.1 p.2)

/-- Python dict lookup, as an association-list search. -/
def pyLookup (k : String) (r : List (String × FieldVal)) : Option FieldVal :=
  (r.find? (fun p => p.1 = k)).map (fun p => p.2)

theorem pySet_of_not_mem (k : String) (v : FieldVal)
    (r : List (String × FieldVal)) (h : ∀ p ∈ r, p.1 ≠ k) :
    pySet k v r = r ++ [(k, v)] := by
  have hany : r.any (fun p => p.1 = k) = false := by
    rw [List.any_eq_false]
    intro p hp
    simpa using h p hp
  simp only [pySet, hany, Bool.false_eq_true, if_false]

theorem pyLookup_append_right (k : String) (r1 r2 : List (String × FieldVal))
    (h : ∀ p ∈ r1, p.1 ≠ k) :
    pyLookup k (r1 ++ r2) = pyLookup k r2 := by
  induction r1 with
  | nil => simp
  | cons p ps ih =>
    have hp : (decide (p.1 = k)) = false := by
      simpa using h p (List.mem_cons_self p ps)
    rw [List.cons_append]
    simp only [pyLookup, List.find?] at ih ⊢
    rw [hp]
    exact ih fun q hq => h q (List.mem_cons_of_mem p hq)

theorem processRecord_split (i : Nat) (r : List (String × FieldVal))
    (h : ∀ p ∈ r, p.1 ≠ "id") :
    processRecord i r
      = flattenRecord (pyDel "IS" r) ++ [("id", FieldVal.intv i)] := by
  rw [processRecord, pySet_of_not_mem _ _ _ h, pyDel, List.filter_append,
    flattenRecord, List.map_append]
  rfl

theorem processRecord_props (i : Nat) (r : List (String × FieldVal)) :
    ∀ p ∈ processRecord i r, (∀ l, p.2 ≠ FieldVal.lst l) ∧ p.1 ≠ "IS" := by
  intro p hp
  rw [processRecord, flattenRecord] at hp
  obtain ⟨q, hq, rfl⟩ := List.mem_map.mp hp
  constructor
  · intro l
    cases q.2 <;> simp
  · have hq2 := (List.mem_filter.mp hq).2
    simpa using hq2

theorem pyLookup_id_processRecord (i : Nat) (r : List (String × FieldVal))
    (h : ∀ p ∈ r, p.1 ≠ "id") :
    pyLookup "id" (processRecord i r) = some (FieldVal.intv i) := by
  rw [processRecord_split i r h, pyLookup_append_right]
  · rfl
  · intro p hp
    rw [flattenRecord] at hp
    obtain ⟨q, hq, rfl⟩ := List.mem_map.mp hp
    have hq1 := List.mem_of_mem_filter hq
    exact h q hq1

/-- Claim C9: `parse_docs` yields one record per input record; in every
output record no value is list-shaped and the reserved field code `IS`
is gone; the record at processing position `i` carries `id = i` (a
locally unique sequential identifier), every list-valued field other
than `IS` reappears joined with `|`, and no field is renamed (every
output key is `id` or a key of the input record).  The hypothesis says
input records carry no `id` field, true of MEDLINE field codes. -/
theorem parse_docs_normalization (recs : List (List (String × FieldVal)))
    (hid : ∀ r ∈ recs, ∀ p ∈ r, p.1 ≠ "id") :
    (parseDocs recs).length = recs.length ∧
    (∀ r2 ∈ parseDocs recs, ∀ p ∈ r2,
      (∀ l, p.2 ≠ FieldVal.lst l) ∧ p.1 ≠ "IS") ∧
    (∀ i r, recs[i]? = some r →
      ∃ r2, (parseDocs recs)[i]? = some r2 ∧
        pyLookup "id" r2 = some (FieldVal.intv i) ∧
        (∀ k l, (k, FieldVal.lst l) ∈ r → k ≠ "IS" →
          (k, FieldVal.str (pyJoin "|" l)) ∈ r2) ∧
        (∀ p ∈ r2, p.1 = "id" ∨ ∃ q ∈ r, q.1 = p.1)) := by
  refine ⟨by simp [parseDocs], ?_, ?_⟩
  · intro r2 hr2
    obtain ⟨⟨i, r⟩, _, rfl⟩ := List.mem_map.mp hr2
    exact processRecord_props i r
  · intro i r hir
    have hmem : r ∈ recs := List.getElem?_mem hir
    have hnoid : ∀ p ∈ r, p.1 ≠ "id" := hid r hmem
    refine ⟨processRecord i r, ?_, pyLookup_id_processRecord i r hnoid, ?_, ?_⟩
    · rw [parseDocs, List.getElem?_map, List.enum, List.getElem?_enumFrom, hir]
      simp
    · intro k l hkl hkIS
      have hkid : k ≠ "id" := hnoid _ hkl
      rw [processRecord_split i r hnoid]
      apply List.mem_append_left
      rw [flattenRecord]
      apply List.mem_map.mpr
      refine ⟨(k, FieldVal.lst l), ?_, rfl⟩
      exact List.mem_filter.mpr ⟨hkl, by simpa using hkIS⟩
    · intro p hp
      rw [processRecord_split i r hnoid] at hp
      rcases List.mem_append.mp hp with hp | hp
      · rw [flattenRecord] at hp
        obtain ⟨q, hq, rfl⟩ := List.mem_map.mp hp
        exact Or.inr ⟨q, List.mem_of_mem_filter hq, rfl⟩
      · left
        simpa using congrArg Prod.fst (List.mem_singleton.mp hp)

/-- Witness for `parse_docs_normalization` at two concrete MEDLINE
records, one carrying a list-valued author field and an `IS` field. -/
theorem parse_docs_normalization_witness :
    (∀ r ∈ ([[("AU", FieldVal.lst ["a", "b"]), ("IS", FieldVal.str "x")],
             [("TI", FieldVal.str "t")]] :
        List (List (String × FieldVal))), ∀ p ∈ r, p.1 ≠ "id") ∧
    ((parseDocs [[("AU", FieldVal.lst ["a", "b"]), ("IS", FieldVal.str "x")],
       [("TI", FieldVal.str "t")]]).length = 2 ∧
     (∀ r2 ∈ parseDocs [[("AU", FieldVal.lst ["a", "b"]), ("IS", FieldVal.str "x")],
        [("TI", FieldVal.str "t")]], ∀ p ∈ r2,
        (∀ l, p.2 ≠ FieldVal.lst l) ∧ p.1 ≠ "IS") ∧
     (∀ i r, ([[("AU", FieldVal.lst ["a", "b"]), ("IS", FieldVal.str "x")],
          [("TI", FieldVal.str "t")]] :
         List (List (String × FieldVal)))[i]? = some r →
       ∃ r2, (parseDocs [[("AU", FieldVal.lst ["a", "b"]), ("IS", FieldVal.str "x")],
           [("TI", FieldVal.str "t")]])[i]? = some r2 ∧
         pyLookup "id" r2 = some (FieldVal.intv i) ∧
         (∀ k l, (k, FieldVal.lst l) ∈ r → k ≠ "IS" →
           (k, FieldVal.str (pyJoin "|" l)) ∈ r2) ∧
         (∀ p ∈ r2, p.1 = "id" ∨ ∃ q ∈ r, q.1 = p.1))) := by
  refine ⟨by decide, ?_⟩
  have h := parse_docs_normalization
    [[("AU", FieldVal.lst ["a", "b"]), ("IS", FieldVal.str "x")],
     [("TI", FieldVal.str "t")]] (by decide)
  simpa using h

/-! ## download_uniprot_entries mode handling (claim C10)

Embeds the control flow of `download_uniprot_entries`
(`protexam_query.py` lines 361-539) around its three modes. -/

inductive UMode where
  | full
  | alias
  | aliasOnly
deriving DecidableEq

inductive UPyErr where
  | nameErrorPbar
deriving DecidableEq

/-- Lines 399-465: `xml_paths = []` (line 399); paths are appended
(line 462) only inside the `if mode in ["full", "alias"]` download
branch, one per batch of 1000 ids, named `prot_entries_<i>.xml`
(line 417).  In `alias_only` mode nothing is ever appended, even
though line 396 points `proteins_xml_path` at `parse_file_name`. -/
def xmlPathsAfterDownload (mode : UMode) (idlist : List String) :
    List String :=
  match mode with
  | .full | .alias =>
    (List.range (batch_this idlist 1000).length).map
      (fun i => "prot_entries_" ++ toString i ++ ".xml")
  | .aliasOnly => []

/-- Lines 487-535: the alias parse loop iterates `for proteins_xml_path
in xml_paths` and writes one alias line per entry of each parsed file;
`entriesOf` abstracts `ET.parse` plus `schema.to_dict` for a path. -/
def parsePhaseAliases (xmlPaths : List String)
    (entriesOf : String → List UEntry) : List (Option String) :=
  (xmlPaths.map (fun p => (entriesOf p).map aliasLine)).flatten

/-- Lines 361-539 for the alias-producing modes: `pbar` is assigned
only at line 411, inside the `if mode in ["full", "alias"]` branch, yet
line 467 runs `pbar.close()` unconditionally at function level — in
`alias_only` mode Python raises an unbound-local-variable error there,
before any parsing; in mode `full` the parse loop (lines 469-485)
writes entry dumps, not alias lines.  The result is the list of alias
lines written (per-entry `none` = an uncaught exception). -/
def downloadUniprotEntries (mode : UMode) (idlist : List String)
    (parseFileName : String) (entriesOf : String → List UEntry) :
    Except UPyErr (List (Option String)) :=
  match mode with
  | .aliasOnly => .error .nameErrorPbar
  | .full => .ok []
  | .alias => .ok (parsePhaseAliases (xmlPathsAfterDownload mode idlist) entriesOf)

/-- Claim C10: calling `download_uniprot_entries` in `alias_only` mode
raises the unbound `pbar` error at `pbar.close()`; and independently of
that error, the parse loop's iteration list `xml_paths` is empty in
this mode — the supplied `parse_file_name` is not among the iterated
paths and no alias line is ever produced from it. -/
theorem alias_only_mode_broken (idlist : List String)
    (parseFileName : String) (entriesOf : String → List UEntry) :
    downloadUniprotEntries .aliasOnly idlist parseFileName entriesOf
      = .error .nameErrorPbar ∧
    xmlPathsAfterDownload .aliasOnly idlist = [] ∧
    parseFileName ∉ xmlPathsAfterDownload .aliasOnly idlist ∧
    parsePhaseAliases (xmlPathsAfterDownload .aliasOnly idlist) entriesOf
      = [] := by
  exact ⟨rfl, rfl, by simp [xmlPathsAfterDownload], rfl⟩

end Protexam
